import Mathlib

/-!
# Verification of the rusty_junctions coordinator

A shallow embedding of the coordinator (the per-junction `Controller`), the
FIFO multimap (`Bag`), the inverted index, the arbitrary-precision `Counter`
and the join-pattern aliveness / selection / firing logic of the
rusty_junctions repository, together with proofs of the specification claims
about them.

Conventions of the embedding:
* `ChannelId`, `JoinPatternId` (Rust `usize` newtypes) are modelled as `Nat`.
* Rust `HashMap` values used only through `get` / `insert` are modelled as
  functions into `Option`; a `HashMap<K, VecDeque<V>>` used as a multimap
  (`Bag`) is modelled as a function `K → List V`, an absent key being the
  empty queue (the source treats those two states identically: `count_items`
  returns 0 and `retrieve` returns `None` in both).
* Handler closures stored inside join patterns are irrelevant to every claim
  (firing only spawns a thread); the pattern records keep their channel ids.
* `Counter` digits (Rust `u64`) are modelled as `Nat` together with the bound
  `≤ 2 ^ 64 - 1` carried by the reachability invariant.
-/

namespace RustyJunctions

/-- Channel identifier (`types::ids::ChannelId`, a `usize` newtype). -/
abbrev ChannelId := Nat

/-- Join-pattern identifier (`types::ids::JoinPatternId`, a `usize` newtype). -/
abbrev JoinPatternId := Nat

/-- Type-erased message payload (`types::Message`); opaque to the
coordinator, so modelled by an arbitrary token. -/
abbrev Msg := Nat

/-! ## The `Bag` FIFO multimap (`bag/src/lib.rs`) -/

/-- `Bag<K, V>` specialised to the coordinator's use: a map from channel ids
to FIFO queues of messages.  An absent key and a key with an empty queue are
observationally identical in the source, so both are the empty list. -/
def Bag := ChannelId → List Msg

/-- The empty bag (`Bag::new`). -/
def Bag.empty : Bag := fun _ => []

/-- `Bag::add`: push the value at the back of the queue for `key`
(inserting a fresh queue when the key is absent). -/
def Bag.add (b : Bag) (key : ChannelId) (item : Msg) : Bag :=
  fun k => if k = key then b key ++ [item] else b k

/-- `Bag::retrieve`: pop the front of the queue for `key`, returning
`some` of the least recently added value, or `none` when nothing is stored. -/
def Bag.retrieve (b : Bag) (key : ChannelId) : Option Msg × Bag :=
  match b key with
  | [] => (none, b)
  | v :: rest => (some v, fun k => if k = key then rest else b k)

/-- `Bag::count_items`: number of values stored for `key`. -/
def Bag.countItems (b : Bag) (key : ChannelId) : Nat :=
  (b key).length

/-- `Bag::contains_items`: whether any value is stored for `key`. -/
def Bag.containsItems (b : Bag) (key : ChannelId) : Bool :=
  !(b key).isEmpty

/-! ## Join patterns (`types.rs` enum `JoinPattern`, `patterns/*`) -/

/-- The nine join-pattern variants of the `JoinPattern` enum.  Each variant
stores the channel ids of its pattern record (`patterns::unary::*JoinPattern`,
`patterns::binary::*JoinPattern`, `patterns::ternary::*JoinPattern`), in field
order.  The stored handler closure is elided. -/
inductive JoinPattern : Type
  | UnarySend (channel : ChannelId)
  | UnaryRecv (channel : ChannelId)
  | UnaryBidir (channel : ChannelId)
  | BinarySend (firstSend secondSend : ChannelId)
  | BinaryRecv (send recv : ChannelId)
  | BinaryBidir (send bidir : ChannelId)
  | TernarySend (firstSend secondSend thirdSend : ChannelId)
  | TernaryRecv (firstSend secondSend recv : ChannelId)
  | TernaryBidir (firstSend secondSend bidir : ChannelId)
  deriving DecidableEq

/-- `JoinPattern::channels` (generated by the `JoinPattern` derive macro):
the ordered list of channel-id fields of the pattern record. -/
def JoinPattern.channels : JoinPattern → List ChannelId
  | .UnarySend c => [c]
  | .UnaryRecv c => [c]
  | .UnaryBidir c => [c]
  | .BinarySend c1 c2 => [c1, c2]
  | .BinaryRecv s r => [s, r]
  | .BinaryBidir s b => [s, b]
  | .TernarySend c1 c2 c3 => [c1, c2, c3]
  | .TernaryRecv s1 s2 r => [s1, s2, r]
  | .TernaryBidir s1 s2 b => [s1, s2, b]

/-! ## Aliveness (`controller/alive.rs`) -/

/-- `Controller::is_unary_alive`. -/
def isUnaryAlive (messages : Bag) (channel : ChannelId) : Bool :=
  messages.countItems channel ≥ 1

/-- `Controller::is_binary_alive`: with two equal channel ids the single
queue must hold at least two messages. -/
def isBinaryAlive (messages : Bag) (firstCh secondCh : ChannelId) : Bool :=
  if firstCh = secondCh then
    messages.countItems firstCh ≥ 2
  else
    isUnaryAlive messages firstCh && isUnaryAlive messages secondCh

/-- `Controller::is_ternary_alive`: three equal ids need three messages;
otherwise every pair must be binary-alive. -/
def isTernaryAlive (messages : Bag) (firstCh secondCh thirdCh : ChannelId) : Bool :=
  if firstCh = secondCh ∧ secondCh = thirdCh then
    messages.countItems firstCh ≥ 3
  else
    isBinaryAlive messages firstCh secondCh &&
      isBinaryAlive messages firstCh thirdCh &&
      isBinaryAlive messages secondCh thirdCh

/-- The variant dispatch of `Controller::is_alive` applied to a pattern
record (the controller wrapper looks the record up first; see
`Controller.isAlive` below). -/
def JoinPattern.variantAlive (messages : Bag) : JoinPattern → Bool
  | .UnarySend c => isUnaryAlive messages c
  | .UnaryRecv c => isUnaryAlive messages c
  | .UnaryBidir c => isUnaryAlive messages c
  | .BinarySend c1 c2 => isBinaryAlive messages c1 c2
  | .BinaryRecv s r => isBinaryAlive messages s r
  | .BinaryBidir s b => isBinaryAlive messages s b
  | .TernarySend c1 c2 c3 => isTernaryAlive messages c1 c2 c3
  | .TernaryRecv s1 s2 r => isTernaryAlive messages s1 s2 r
  | .TernaryBidir s1 s2 b => isTernaryAlive messages s1 s2 b

/-- Spec-side aliveness (from the spec's words, for comparison with the
code-side checks): for every channel id `k` in the pattern's channel list,
the inventory queue for `k` holds at least as many messages as `k`'s
multiplicity in the list. -/
def aliveSpec (messages : Bag) (jp : JoinPattern) : Prop :=
  ∀ k ∈ jp.channels, jp.channels.count k ≤ messages.countItems k

instance (messages : Bag) (jp : JoinPattern) : Decidable (aliveSpec messages jp) := by
  unfold aliveSpec; infer_instance

/-- The aggregated-multiplicity criterion for a unary channel list. -/
lemma unary_alive_iff (m : Bag) (a : ChannelId) :
    isUnaryAlive m a = true ↔ ∀ k ∈ [a], List.count k [a] ≤ m.countItems k := by
  simp [isUnaryAlive]

/-- The aggregated-multiplicity criterion for a binary channel list. -/
lemma binary_alive_iff (m : Bag) (a b : ChannelId) :
    isBinaryAlive m a b = true ↔ ∀ k ∈ [a, b], List.count k [a, b] ≤ m.countItems k := by
  by_cases hab : a = b
  · subst hab
    simp [isBinaryAlive, List.count_cons]
  · simp [isBinaryAlive, isUnaryAlive, List.count_cons, hab, Ne.symm hab]

/-- The aggregated-multiplicity criterion for a ternary channel list. -/
lemma ternary_alive_iff (m : Bag) (a b c : ChannelId) :
    isTernaryAlive m a b c = true ↔
      ∀ k ∈ [a, b, c], List.count k [a, b, c] ≤ m.countItems k := by
  by_cases hab : a = b <;> by_cases hbc : b = c
  · subst hab; subst hbc
    simp [isTernaryAlive, List.count_cons]
  · -- a = b ≠ c: needs two messages on `a` and one on `c`.
    subst hab
    simp [isTernaryAlive, isBinaryAlive, isUnaryAlive, List.count_cons, hbc,
      Ne.symm hbc] <;> omega
  · -- b = c ≠ a: needs one message on `a` and two on `b`.
    subst hbc
    simp [isTernaryAlive, isBinaryAlive, isUnaryAlive, List.count_cons, hab,
      Ne.symm hab] <;> omega
  · by_cases hac : a = c
    · -- a = c ≠ b: needs two messages on `a` and one on `b`.
      subst hac
      simp [isTernaryAlive, isBinaryAlive, isUnaryAlive, List.count_cons, hab,
        Ne.symm hab] <;> omega
    · -- all three distinct: one message on each.
      simp [isTernaryAlive, isBinaryAlive, isUnaryAlive, List.count_cons, hab, hbc,
        hac, Ne.symm hab, Ne.symm hbc, Ne.symm hac] <;> omega

/-- C1: the variant-matching aliveness check of `Controller::is_alive` agrees
with the aggregated multiplicity criterion, for each of the nine pattern
shapes: a pattern is judged alive iff every distinct channel id `k` in its
channel list, of multiplicity `m_k`, has at least `m_k` queued messages. -/
theorem variantAlive_iff_aliveSpec (messages : Bag) (jp : JoinPattern) :
    jp.variantAlive messages = true ↔ aliveSpec messages jp := by
  cases jp with
  | UnarySend c => exact unary_alive_iff messages c
  | UnaryRecv c => exact unary_alive_iff messages c
  | UnaryBidir c => exact unary_alive_iff messages c
  | BinarySend c1 c2 => exact binary_alive_iff messages c1 c2
  | BinaryRecv s r => exact binary_alive_iff messages s r
  | BinaryBidir s b => exact binary_alive_iff messages s b
  | TernarySend c1 c2 c3 => exact ternary_alive_iff messages c1 c2 c3
  | TernaryRecv s1 s2 r => exact ternary_alive_iff messages s1 s2 r
  | TernaryBidir s1 s2 b => exact ternary_alive_iff messages s1 s2 b

/-! ## The arbitrary-precision counter (`counter.rs`)

The `Counter` stores its value as `Vec<u64>` of little-endian base-`2^64`
digits.  Digits are modelled as `Nat`; the bound `≤ 2^64 - 1` is part of the
reachability invariant. -/

/-- `UINT_MAX` of `counter.rs` (`u64::max_value()`). -/
def UINT_MAX : Nat := 2 ^ 64 - 1

/-- `Counter::increment` on the digit vector: add one to the lowest digit,
propagating the carry through saturated digits (resetting them to
`UINT_MIN = 0`), and push a fresh digit when the carry survives the last
digit. -/
def incDigits : List Nat → List Nat
  | [] => [1]
  | e :: rest => if e < UINT_MAX then (e + 1) :: rest else 0 :: incDigits rest

/-- The numeric value encoded by a little-endian base-`2^64` digit vector. -/
def counterVal : List Nat → Nat
  | [] => 0
  | d :: rest => d + 2 ^ 64 * counterVal rest

/-- The three-way comparison on `Nat`, the model of `u64::cmp` (and the
spec-side comparison of numeric counter values). -/
def natCmp (a b : Nat) : Ordering :=
  if a < b then .lt else if a = b then .eq else .gt

/-- `Counter::cmp`: shorter digit vectors are smaller; equal-length vectors
are compared by zipping the digit comparisons, filtering out the equal ones
and keeping the last survivor (the most significant differing digit). -/
def cmpDigits (as bs : List Nat) : Ordering :=
  if as.length < bs.length then .lt
  else if bs.length < as.length then .gt
  else
    match ((List.zipWith natCmp as bs).filter (fun v => !(v == Ordering.eq))).getLast? with
    | some cmp => cmp
    | none => .eq

/-- The `Counter` values reachable from `Counter::default()` (the single
digit `[0]`) by `increment`. -/
inductive ReachableCounter : List Nat → Prop
  | base : ReachableCounter [0]
  | step {ds : List Nat} : ReachableCounter ds → ReachableCounter (incDigits ds)

/-- Well-formedness of a digit vector: non-empty, every digit fits in a
`u64`, and the most significant digit is non-zero except for the zero
counter `[0]`. -/
def goodDigits (ds : List Nat) : Prop :=
  ds ≠ [] ∧ (∀ d ∈ ds, d ≤ UINT_MAX) ∧ (ds.getLast? = some 0 → ds = [0])

lemma incDigits_ne_nil (ds : List Nat) : incDigits ds ≠ [] := by
  cases ds with
  | nil => simp [incDigits]
  | cons d rest =>
      unfold incDigits
      split <;> simp

lemma incDigits_bounded {ds : List Nat} (h : ∀ d ∈ ds, d ≤ UINT_MAX) :
    ∀ d ∈ incDigits ds, d ≤ UINT_MAX := by
  induction ds with
  | nil =>
      intro d hd
      simp only [incDigits, List.mem_singleton] at hd
      subst hd
      simp [UINT_MAX]
  | cons e rest ih =>
      intro d hd
      unfold incDigits at hd
      split at hd
      · rcases List.mem_cons.mp hd with rfl | hmem
        · have := h e (by simp)
          omega
        · exact h d (List.mem_cons_of_mem _ hmem)
      · rcases List.mem_cons.mp hd with rfl | hmem
        · exact Nat.zero_le _
        · exact ih (fun x hx => h x (List.mem_cons_of_mem _ hx)) d hmem

lemma incDigits_getLast_ne_zero {ds : List Nat}
    (h : ds.getLast? = some 0 → ds = [0]) :
    (incDigits ds).getLast? ≠ some 0 := by
  induction ds with
  | nil => simp [incDigits]
  | cons e rest ih =>
      unfold incDigits
      split
      · cases rest with
        | nil => simp
        | cons r rs =>
            rw [List.getLast?_cons_cons]
            intro hlast
            have : e :: r :: rs = [0] := h (by rwa [List.getLast?_cons_cons])
            simp at this
      · have hrest : rest.getLast? = some 0 → rest = [0] := by
          intro hr
          cases rest with
          | nil => simp at hr
          | cons r rs =>
              have : e :: r :: rs = [0] := h (by rwa [List.getLast?_cons_cons])
              simp at this
        have hne := incDigits_ne_nil rest
        cases hinc : incDigits rest with
        | nil => exact absurd hinc hne
        | cons i is =>
            rw [List.getLast?_cons_cons]
            exact hinc ▸ ih hrest

lemma goodDigits_incDigits {ds : List Nat} (h : goodDigits ds) :
    goodDigits (incDigits ds) := by
  obtain ⟨-, hbound, hlast⟩ := h
  exact ⟨incDigits_ne_nil ds, incDigits_bounded hbound,
    fun hcon => absurd hcon (incDigits_getLast_ne_zero hlast)⟩

lemma goodDigits_of_reachable {ds : List Nat} (h : ReachableCounter ds) :
    goodDigits ds := by
  induction h with
  | base => refine ⟨by simp, ?_, by simp⟩; intro d hd; simp at hd; simp [hd]
  | step _ ih => exact goodDigits_incDigits ih

/-- Incrementing the digit vector adds one to the encoded value. -/
lemma counterVal_incDigits {ds : List Nat} (h : ∀ d ∈ ds, d ≤ UINT_MAX) :
    counterVal (incDigits ds) = counterVal ds + 1 := by
  induction ds with
  | nil => simp [incDigits, counterVal]
  | cons e rest ih =>
      unfold incDigits
      split
      · simp [counterVal]; omega
      · have he : e = UINT_MAX := by
          have := h e (by simp)
          omega
        have := ih (fun x hx => h x (List.mem_cons_of_mem _ hx))
        simp [counterVal, this, he, UINT_MAX]
        ring_nf

lemma natCmp_eq_iff {a b : Nat} : natCmp a b = .eq ↔ a = b := by
  unfold natCmp
  split_ifs <;> simp_all <;> omega

lemma natCmp_lt_iff {a b : Nat} : natCmp a b = .lt ↔ a < b := by
  unfold natCmp
  split_ifs <;> simp_all

lemma natCmp_gt_iff {a b : Nat} : natCmp a b = .gt ↔ b < a := by
  unfold natCmp
  split_ifs <;> simp_all <;> omega

/-- Adding a common lower-digit contribution does not change the comparison. -/
lemma natCmp_shift (a b c : Nat) : natCmp (a + c) (b + c) = natCmp a b := by
  unfold natCmp
  split_ifs <;> first | rfl | omega

/-- When the high parts differ, they alone decide the comparison. -/
lemma natCmp_high {a b v1 v2 : Nat} (ha : a ≤ UINT_MAX) (hb : b ≤ UINT_MAX)
    (hne : v1 ≠ v2) :
    natCmp (a + 2 ^ 64 * v1) (b + 2 ^ 64 * v2) = natCmp v1 v2 := by
  unfold natCmp UINT_MAX at *
  split_ifs <;> first | rfl | omega

/-- The `filter`/`last` step of `Counter::cmp`: the most significant
non-equal digit comparison, `Ordering::Equal` when all digits agree. -/
def lastCmp (l : List Ordering) : Ordering :=
  match (l.filter (fun v => !(v == Ordering.eq))).getLast? with
  | some cmp => cmp
  | none => .eq

lemma beqOrd_self (o : Ordering) : (o == o) = true := by cases o <;> rfl

lemma beqOrd_eq_false {o p : Ordering} (h : ¬ o = p) : (o == p) = false := by
  cases o <;> cases p <;> simp_all <;> rfl

lemma lastCmp_cons (o : Ordering) (l : List Ordering) :
    lastCmp (o :: l) =
      if (l.filter (fun v => !(v == Ordering.eq))) = [] then
        (if o = .eq then .eq else o)
      else lastCmp l := by
  by_cases ho : o = Ordering.eq
  · subst ho
    cases hf : l.filter (fun v => !(v == Ordering.eq)) with
    | nil => simp [lastCmp, List.filter_cons, hf, beqOrd_self]
    | cons c cs => simp [lastCmp, List.filter_cons, hf, beqOrd_self]
  · cases hf : l.filter (fun v => !(v == Ordering.eq)) with
    | nil => simp [lastCmp, List.filter_cons, hf, ho, beqOrd_eq_false ho]
    | cons c cs => simp [lastCmp, List.filter_cons, hf, ho, beqOrd_eq_false ho]

lemma lastCmp_ne_eq_of_filter_ne_nil {l : List Ordering}
    (h : l.filter (fun v => !(v == Ordering.eq)) ≠ []) : lastCmp l ≠ .eq := by
  cases hfl : l.filter (fun v => !(v == Ordering.eq)) with
  | nil => exact absurd hfl h
  | cons c cs =>
      unfold lastCmp
      rw [hfl, List.getLast?_eq_getLast _ (by simp)]
      show (c :: cs).getLast (by simp) ≠ Ordering.eq
      have hx : (c :: cs).getLast (by simp) ∈
          l.filter (fun v => !(v == Ordering.eq)) := by
        rw [hfl]
        exact List.getLast_mem _
      have hpx := List.of_mem_filter hx
      intro hcon
      rw [hcon] at hpx
      simp [beqOrd_self] at hpx

/-- The value of a bounded digit vector is injective at fixed length. -/
lemma counterVal_inj_same_length : ∀ {as bs : List Nat},
    as.length = bs.length → (∀ d ∈ as, d ≤ UINT_MAX) → (∀ d ∈ bs, d ≤ UINT_MAX) →
    counterVal as = counterVal bs → as = bs := by
  intro as
  induction as with
  | nil =>
      intro bs hlen _ _ _
      exact (List.length_eq_zero.mp hlen.symm).symm
  | cons a as ih =>
      intro bs hlen hba hbb hval
      cases bs with
      | nil => simp at hlen
      | cons b bs =>
          simp only [List.length_cons, Nat.succ_inj] at hlen
          have ha := hba a (by simp)
          have hb := hbb b (by simp)
          simp only [counterVal] at hval
          have hab : a = b ∧ counterVal as = counterVal bs := by
            unfold UINT_MAX at ha hb
            constructor <;> omega
          rw [hab.1, ih hlen (fun d hd => hba d (by simp [hd]))
            (fun d hd => hbb d (by simp [hd])) hab.2]

/-- On equal-length bounded digit vectors, the digitwise `filter`/`last`
comparison computes the comparison of the encoded values. -/
lemma lastCmp_zipWith_eq_natCmp : ∀ {as bs : List Nat},
    as.length = bs.length → (∀ d ∈ as, d ≤ UINT_MAX) → (∀ d ∈ bs, d ≤ UINT_MAX) →
    lastCmp (List.zipWith natCmp as bs) = natCmp (counterVal as) (counterVal bs) := by
  intro as
  induction as with
  | nil =>
      intro bs hlen _ _
      have : bs = [] := List.length_eq_zero.mp hlen.symm
      subst this
      simp [lastCmp, counterVal, natCmp]
  | cons a as ih =>
      intro bs hlen hba hbb
      cases bs with
      | nil => simp at hlen
      | cons b bs =>
          simp only [List.length_cons, Nat.succ_inj] at hlen
          have ha := hba a (by simp)
          have hb := hbb b (by simp)
          have htaila : ∀ d ∈ as, d ≤ UINT_MAX := fun d hd => hba d (by simp [hd])
          have htailb : ∀ d ∈ bs, d ≤ UINT_MAX := fun d hd => hbb d (by simp [hd])
          have hrec := ih hlen htaila htailb
          rw [List.zipWith_cons_cons, lastCmp_cons]
          simp only [counterVal]
          split
          · -- All higher digits agree, so the lowest digits decide.
            rename_i hfil
            have hveq : counterVal as = counterVal bs := by
              have : lastCmp (List.zipWith natCmp as bs) = .eq := by
                unfold lastCmp
                rw [hfil]
                rfl
              exact natCmp_eq_iff.mp (this ▸ hrec.symm)
            rw [hveq, natCmp_shift]
            by_cases hc : natCmp a b = Ordering.eq
            · rw [if_pos hc, hc]
            · rw [if_neg hc]
          · -- Some higher digit differs; it overrides the lowest digits.
            rename_i hfil
            have hne : lastCmp (List.zipWith natCmp as bs) ≠ .eq :=
              lastCmp_ne_eq_of_filter_ne_nil hfil
            have hvne : counterVal as ≠ counterVal bs := by
              intro hcon
              exact hne (by rw [hrec, natCmp_eq_iff]; exact hcon)
            rw [hrec, natCmp_high ha hb hvne]

/-- Every bounded digit vector encodes a value below `2 ^ (64 * length)`. -/
lemma counterVal_lt_pow : ∀ {ds : List Nat}, (∀ d ∈ ds, d ≤ UINT_MAX) →
    counterVal ds < 2 ^ (64 * ds.length) := by
  intro ds
  induction ds with
  | nil => intro _; simp [counterVal]
  | cons d rest ih =>
      intro h
      have hd := h d (by simp)
      have hrest := ih (fun x hx => h x (by simp [hx]))
      simp only [counterVal, List.length_cons]
      have hpow : 2 ^ (64 * (rest.length + 1)) = 2 ^ 64 * 2 ^ (64 * rest.length) := by
        rw [Nat.mul_add, Nat.mul_one, Nat.pow_add, Nat.mul_comm]
      rw [hpow]
      unfold UINT_MAX at hd
      omega

/-- A digit vector with a non-zero most significant digit encodes a value of
at least `2 ^ (64 * (length - 1))`. -/
lemma pow_le_counterVal : ∀ {ds : List Nat}, ds ≠ [] → ds.getLast? ≠ some 0 →
    2 ^ (64 * (ds.length - 1)) ≤ counterVal ds := by
  intro ds
  induction ds with
  | nil => intro h; exact absurd rfl h
  | cons d rest ih =>
      intro _ hlast
      cases rest with
      | nil =>
          simp only [List.getLast?_singleton] at hlast
          have : d ≠ 0 := fun hc => hlast (by rw [hc])
          simpa [counterVal] using Nat.one_le_iff_ne_zero.mpr this
      | cons r rs =>
          rw [List.getLast?_cons_cons] at hlast
          have hrec := ih (by simp) hlast
          simp only [counterVal, List.length_cons] at *
          have hpow : 2 ^ (64 * (rs.length + 1 + 1 - 1)) =
              2 ^ 64 * 2 ^ (64 * (rs.length + 1 - 1)) := by
            rw [Nat.add_sub_cancel, Nat.add_sub_cancel, Nat.mul_add, Nat.mul_one,
              Nat.pow_add, Nat.mul_comm]
          rw [hpow]
          omega

/-- On well-formed digit vectors, `Counter::cmp` computes the comparison of
the encoded numeric values. -/
lemma cmpDigits_eq_natCmp_val {as bs : List Nat}
    (ha : goodDigits as) (hb : goodDigits bs) :
    cmpDigits as bs = natCmp (counterVal as) (counterVal bs) := by
  obtain ⟨hane, habound, halast⟩ := ha
  obtain ⟨hbne, hbbound, hblast⟩ := hb
  unfold cmpDigits
  rcases Nat.lt_trichotomy as.length bs.length with hlt | heq | hgt
  · rw [if_pos hlt]
    -- The shorter vector encodes the smaller value.
    have h1 : counterVal as < 2 ^ (64 * as.length) := counterVal_lt_pow habound
    have hlen2 : 2 ≤ bs.length := by
      have : 1 ≤ as.length := List.length_pos.mpr hane
      omega
    have hbl : bs.getLast? ≠ some 0 := by
      intro hc
      have := hblast hc
      subst this
      simp at hlen2
    have h2 : 2 ^ (64 * (bs.length - 1)) ≤ counterVal bs := pow_le_counterVal hbne hbl
    have hple : 2 ^ (64 * as.length) ≤ 2 ^ (64 * (bs.length - 1)) :=
      Nat.pow_le_pow_right (by omega) (by omega)
    rw [eq_comm, natCmp_lt_iff]
    omega
  · rw [if_neg (by omega), if_neg (by omega)]
    exact lastCmp_zipWith_eq_natCmp heq habound hbbound
  · rw [if_neg (by omega), if_pos hgt]
    have h1 : counterVal bs < 2 ^ (64 * bs.length) := counterVal_lt_pow hbbound
    have hlen2 : 2 ≤ as.length := by
      have : 1 ≤ bs.length := List.length_pos.mpr hbne
      omega
    have hal : as.getLast? ≠ some 0 := by
      intro hc
      have := halast hc
      subst this
      simp at hlen2
    have h2 : 2 ^ (64 * (as.length - 1)) ≤ counterVal as := pow_le_counterVal hane hal
    have hple : 2 ^ (64 * bs.length) ≤ 2 ^ (64 * (as.length - 1)) :=
      Nat.pow_le_pow_right (by omega) (by omega)
    rw [eq_comm, natCmp_gt_iff]
    omega

/-- C8: on the `Counter` values reachable from `Counter::default()` by
`increment`, (i) `cmp` agrees with the three-way comparison of the numeric
values encoded little-endian in base `2^64` (hence it is a total order on
reachable values), (ii) `increment` adds exactly one to the encoded value
(carrying and appending a digit as needed), (iii) the incremented counter is
strictly greater under `cmp`, and (iv) `cmp`-equal counters are equal. -/
theorem counter_cmp_agrees_and_increment_strictly_greater (ds es : List Nat)
    (hds : ReachableCounter ds) (hes : ReachableCounter es) :
    cmpDigits ds es = natCmp (counterVal ds) (counterVal es) ∧
    counterVal (incDigits ds) = counterVal ds + 1 ∧
    cmpDigits (incDigits ds) ds = .gt ∧
    (cmpDigits ds es = .eq → ds = es) := by
  have hgd := goodDigits_of_reachable hds
  have hge := goodDigits_of_reachable hes
  have hinc := goodDigits_incDigits hgd
  have hval : counterVal (incDigits ds) = counterVal ds + 1 :=
    counterVal_incDigits hgd.2.1
  refine ⟨cmpDigits_eq_natCmp_val hgd hge, hval, ?_, ?_⟩
  · rw [cmpDigits_eq_natCmp_val hinc hgd, hval, natCmp_gt_iff]
    omega
  · intro hcmp
    rw [cmpDigits_eq_natCmp_val hgd hge, natCmp_eq_iff] at hcmp
    have hlen : ds.length = es.length := by
      by_contra hne
      rcases Nat.lt_or_ge ds.length es.length with hlt | hge2
      · have := cmpDigits_eq_natCmp_val hgd hge
        unfold cmpDigits at this
        rw [if_pos hlt] at this
        rw [natCmp_eq_iff.mpr hcmp] at this
        exact Ordering.noConfusion this
      · have hgt : es.length < ds.length := by omega
        have := cmpDigits_eq_natCmp_val hgd hge
        unfold cmpDigits at this
        rw [if_neg (by omega), if_pos hgt] at this
        rw [natCmp_eq_iff.mpr hcmp] at this
        exact Ordering.noConfusion this
    exact counterVal_inj_same_length hlen hgd.2.1 hge.2.1 hcmp

/-- Witness for C8 at the concrete reachable counters `[0]` and
`increment [0] = [1]`. -/
theorem counter_cmp_witness :
    ReachableCounter [0] ∧ cmpDigits (incDigits [0]) [0] = Ordering.gt :=
  ⟨ReachableCounter.base,
    (counter_cmp_agrees_and_increment_strictly_greater [0] [0]
      ReachableCounter.base ReachableCounter.base).2.2.1⟩

/-! ## FIFO behaviour of the `Bag` under operation sequences (C4) -/

/-- An operation on the `Bag`: `Bag::add` or `Bag::retrieve`. -/
inductive BagOp : Type
  | add (key : ChannelId) (item : Msg)
  | retrieve (key : ChannelId)

/-- Run a sequence of `Bag` operations, returning the final bag and, per
key, the values returned by the (successful) `retrieve` calls in call
order. -/
def runBagOps : List BagOp → Bag → Bag × (ChannelId → List Msg)
  | [], b => (b, fun _ => [])
  | .add k v :: ops, b => runBagOps ops (b.add k v)
  | .retrieve k :: ops, b =>
      let step := b.retrieve k
      let rest := runBagOps ops step.2
      match step.1 with
      | none => rest
      | some v => (rest.1, fun k2 => if k2 = k then v :: rest.2 k2 else rest.2 k2)

/-- The values added under `key` during a sequence of operations, in order. -/
def addsOf : List BagOp → ChannelId → List Msg
  | [], _ => []
  | .add k v :: ops, key => if key = k then v :: addsOf ops key else addsOf ops key
  | .retrieve _ :: ops, key => addsOf ops key

lemma runBagOps_fifo : ∀ (ops : List BagOp) (b : Bag) (k : ChannelId),
    (runBagOps ops b).2 k ++ (runBagOps ops b).1 k = b k ++ addsOf ops k := by
  intro ops
  induction ops with
  | nil => intro b k; simp [runBagOps, addsOf]
  | cons op ops ih =>
      intro b k
      cases op with
      | add k2 v =>
          have := ih (b.add k2 v) k
          simp only [runBagOps, addsOf]
          rw [this]
          unfold Bag.add
          by_cases hk : k = k2
          · subst hk
            simp
          · simp [hk]
      | retrieve k2 =>
          simp only [runBagOps, addsOf]
          unfold Bag.retrieve
          cases hq : b k2 with
          | nil =>
              simpa using ih b k
          | cons v q =>
              have hb2 := ih (fun j => if j = k2 then q else b j) k
              by_cases hk : k = k2
              · subst hk
                simp at hb2 ⊢
                simp [hb2, hq]
              · simp only [if_neg hk] at hb2
                simp only [if_neg hk]
                rw [hb2]

/-- C4: per-key FIFO of the `Bag`.  Starting from `Bag::new`, after any
sequence of `add` / `retrieve` operations, the values returned by the
successful `retrieve(k)` calls, in call order, followed by the values still
queued under `k`, are exactly the values added under `k` in the order added
(so retrieves return the added values in their arrival order); moreover each
single `retrieve` returns the head of the queue: `some` of the least
recently added value still present, or `none` when nothing is stored. -/
theorem bag_fifo_per_key (ops : List BagOp) (k : ChannelId) :
    (runBagOps ops Bag.empty).2 k ++ (runBagOps ops Bag.empty).1 k = addsOf ops k ∧
    (∀ b : Bag, (b.retrieve k).1 = (b k).head?) := by
  constructor
  · have := runBagOps_fifo ops Bag.empty k
    simpa [Bag.empty] using this
  · intro b
    unfold Bag.retrieve
    cases b k <;> simp

/-! ## Selection of the join pattern to fire (`controller/fire.rs`, C2) -/

/-- `Controller::compare_last_fired` as a function of the last-fired entries
(the contents of `join_pattern_last_fired`): never-fired (`None`) entries
compare equal to each other and below any fired entry; two fired entries
compare by their counters.  The source looks each id up in the `HashMap` and
unwraps (a panic for unregistered ids); the model takes the entry map
directly, so it is defined exactly on the registered ids the source does not
panic on. -/
def cmpLastFired (lf : JoinPatternId → Option (List Nat))
    (jpId1 jpId2 : JoinPatternId) : Ordering :=
  match lf jpId1, lf jpId2 with
  | none, none => .eq
  | none, some _ => .lt
  | some _, none => .gt
  | some c1, some c2 => cmpDigits c1 c2

/-- Insert into a sorted list, before the first element not below `x`. -/
def insertSorted (le : JoinPatternId → JoinPatternId → Bool) (x : JoinPatternId) :
    List JoinPatternId → List JoinPatternId
  | [] => [x]
  | y :: ys => if le x y then x :: y :: ys else y :: insertSorted le x ys

/-- A deterministic comparator-consistent sort (insertion sort), modelling
`Vec::sort_unstable_by` (which is likewise deterministic for a given input
list and produces an ordering consistent with the comparator). -/
def sortByCmp (cmp : JoinPatternId → JoinPatternId → Ordering)
    (l : List JoinPatternId) : List JoinPatternId :=
  l.foldr (insertSorted (fun a b => !(cmp a b == Ordering.gt))) []

/-- `Controller::select_to_fire`: sort the alive candidates by
`compare_last_fired` and take the first, `None` for an empty list. -/
def selectToFire (lf : JoinPatternId → Option (List Nat))
    (aliveJpIds : List JoinPatternId) : Option JoinPatternId :=
  (sortByCmp (cmpLastFired lf) aliveJpIds).head?

lemma mem_insertSorted {le x} : ∀ {l y}, y ∈ insertSorted le x l → y = x ∨ y ∈ l := by
  intro l
  induction l with
  | nil => intro y hy; simp [insertSorted] at hy; exact Or.inl hy
  | cons z zs ih =>
      intro y hy
      unfold insertSorted at hy
      split at hy
      · rcases List.mem_cons.mp hy with rfl | h2
        · exact Or.inl rfl
        · exact Or.inr h2
      · rcases List.mem_cons.mp hy with rfl | h2
        · exact Or.inr (by simp)
        · rcases ih h2 with rfl | h3
          · exact Or.inl rfl
          · exact Or.inr (by simp [h3])

lemma insertSorted_ne_nil (le x) : ∀ l, insertSorted le x l ≠ [] := by
  intro l
  cases l with
  | nil => simp [insertSorted]
  | cons y ys =>
      unfold insertSorted
      split <;> simp

lemma mem_sortByCmp {cmp} : ∀ {l y}, y ∈ sortByCmp cmp l → y ∈ l := by
  intro l
  induction l with
  | nil => intro y hy; simp [sortByCmp] at hy
  | cons z zs ih =>
      intro y hy
      rcases mem_insertSorted hy with rfl | h2
      · simp
      · exact List.mem_cons_of_mem _ (ih h2)

lemma sortByCmp_eq_nil {cmp} : ∀ {l}, sortByCmp cmp l = [] → l = [] := by
  intro l
  cases l with
  | nil => intro _; rfl
  | cons z zs =>
      intro h
      exact absurd h (insertSorted_ne_nil _ _ _)

/-- The head of the comparator sort is minimal among the input elements,
provided the induced `le` is total and transitive on them. -/
lemma sortByCmp_head_min {cmp : JoinPatternId → JoinPatternId → Ordering} :
    ∀ (l : List JoinPatternId)
      (_ : ∀ a ∈ l, ∀ b ∈ l,
        (!(cmp a b == Ordering.gt)) = true ∨ (!(cmp b a == Ordering.gt)) = true)
      (_ : ∀ a ∈ l, ∀ b ∈ l, ∀ c ∈ l,
        (!(cmp a b == Ordering.gt)) = true → (!(cmp b c == Ordering.gt)) = true →
        (!(cmp a c == Ordering.gt)) = true)
      (hd : JoinPatternId) (tl : List JoinPatternId),
      sortByCmp cmp l = hd :: tl → ∀ x ∈ l, (!(cmp hd x == Ordering.gt)) = true := by
  intro l
  induction l with
  | nil => intro _ _ hd tl hs; simp [sortByCmp] at hs
  | cons z zs ih =>
      intro htot htrans hd tl hs x hx
      have hsub_tot : ∀ a ∈ zs, ∀ b ∈ zs,
          (!(cmp a b == Ordering.gt)) = true ∨ (!(cmp b a == Ordering.gt)) = true :=
        fun a ha b hb => htot a (by simp [ha]) b (by simp [hb])
      have hsub_trans : ∀ a ∈ zs, ∀ b ∈ zs, ∀ c ∈ zs,
          (!(cmp a b == Ordering.gt)) = true → (!(cmp b c == Ordering.gt)) = true →
          (!(cmp a c == Ordering.gt)) = true :=
        fun a ha b hb c hc => htrans a (by simp [ha]) b (by simp [hb]) c (by simp [hc])
      have hzz : (!(cmp z z == Ordering.gt)) = true := by
        rcases htot z (by simp) z (by simp) with h | h <;> exact h
      simp only [sortByCmp, List.foldr_cons] at hs
      cases hzs : sortByCmp cmp zs with
      | nil =>
          have hempty : zs = [] := sortByCmp_eq_nil hzs
          subst hempty
          simp only [List.foldr_nil] at hs
          unfold insertSorted at hs
          injection hs with ha hb
          subst ha
          rcases List.mem_singleton.mp hx with rfl
          exact hzz
      | cons h1 t1 =>
          have hh1min := ih hsub_tot hsub_trans h1 t1 hzs
          have hh1mem : h1 ∈ zs := mem_sortByCmp (by rw [hzs]; simp)
          unfold sortByCmp at hzs
          rw [hzs] at hs
          unfold insertSorted at hs
          split at hs
          · -- `z` goes to the front: the head is `z` itself.
            rename_i hle
            injection hs with ha hb
            rw [← ha]
            rcases List.mem_cons.mp hx with hxz | hxzs
            · rw [hxz]; exact hzz
            · exact htrans z (by simp) h1 (by simp [hh1mem]) x (by simp [hxzs]) hle
                (hh1min x hxzs)
          · -- the previous head `h1` stays in front.
            rename_i hle
            injection hs with ha hb
            rw [← ha]
            rcases List.mem_cons.mp hx with hxz | hxzs
            · rcases htot z (by simp) h1 (by simp [hh1mem]) with h | h
              · exact absurd h (by simpa using hle)
              · rw [hxz]; exact h
            · exact hh1min x hxzs

/-- The order on last-fired entries as the spec describes it: a never-fired
entry (`none`) is below everything; fired entries are ordered by the numeric
value of their counter. -/
def entryLE : Option (List Nat) → Option (List Nat) → Prop
  | none, _ => True
  | some _, none => False
  | some c1, some c2 => counterVal c1 ≤ counterVal c2

lemma natCmp_not_gt (a b : Nat) : (!(natCmp a b == Ordering.gt)) = true ↔ a ≤ b := by
  unfold natCmp
  split_ifs with h1 h2
  · exact ⟨fun _ => by omega, fun _ => rfl⟩
  · exact ⟨fun _ => by omega, fun _ => rfl⟩
  · exact ⟨fun hcon => absurd hcon (by decide), fun hcon => absurd hcon (by omega)⟩

/-- With well-formed counters, `compare_last_fired` does not return
`Greater` exactly when the first entry is below-or-equal in the spec
order. -/
lemma cmpLastFired_ne_gt_iff {lf : JoinPatternId → Option (List Nat)} {a b : JoinPatternId}
    (ha : ∀ cs, lf a = some cs → goodDigits cs)
    (hb : ∀ cs, lf b = some cs → goodDigits cs) :
    (!(cmpLastFired lf a b == Ordering.gt)) = true ↔ entryLE (lf a) (lf b) := by
  unfold cmpLastFired entryLE
  cases hfa : lf a with
  | none =>
      cases hfb : lf b with
      | none => exact ⟨fun _ => trivial, fun _ => rfl⟩
      | some c2 => exact ⟨fun _ => trivial, fun _ => rfl⟩
  | some c1 =>
      cases hfb : lf b with
      | none => exact ⟨fun hcon => Bool.false_ne_true hcon, fun hcon => hcon.elim⟩
      | some c2 =>
          show (!(cmpDigits c1 c2 == Ordering.gt)) = true ↔ counterVal c1 ≤ counterVal c2
          rw [cmpDigits_eq_natCmp_val (ha c1 hfa) (hb c2 hfb)]
          exact natCmp_not_gt _ _

/-- C2: on a non-empty list of alive candidates whose last-fired entries
hold well-formed counters, `select_to_fire` returns `Some` of a candidate
whose entry is minimal in the order with never-fired strictly below any
fired entry and fired entries ordered by counter; on the empty list it
returns `None`.  (The model is a function of the entry map and the input
list, so the choice among tied candidates is deterministic for a given
input list by construction.) -/
theorem select_to_fire_picks_least_recently_fired
    (lf : JoinPatternId → Option (List Nat)) (cands : List JoinPatternId)
    (hgood : ∀ id ∈ cands, ∀ cs, lf id = some cs → goodDigits cs) :
    (cands = [] → selectToFire lf cands = none) ∧
    (cands ≠ [] → ∃ chosen, selectToFire lf cands = some chosen ∧
      chosen ∈ cands ∧ ∀ other ∈ cands, entryLE (lf chosen) (lf other)) := by
  constructor
  · rintro rfl
    rfl
  · intro hne
    cases hs : sortByCmp (cmpLastFired lf) cands with
    | nil => exact absurd (sortByCmp_eq_nil hs) hne
    | cons hd tl =>
        have htot : ∀ a ∈ cands, ∀ b ∈ cands,
            (!(cmpLastFired lf a b == Ordering.gt)) = true ∨
            (!(cmpLastFired lf b a == Ordering.gt)) = true := by
          intro a ha b hb
          rw [cmpLastFired_ne_gt_iff (hgood a ha) (hgood b hb),
            cmpLastFired_ne_gt_iff (hgood b hb) (hgood a ha)]
          unfold entryLE
          cases lf a <;> cases lf b <;> simp <;> omega
        have htrans : ∀ a ∈ cands, ∀ b ∈ cands, ∀ c ∈ cands,
            (!(cmpLastFired lf a b == Ordering.gt)) = true →
            (!(cmpLastFired lf b c == Ordering.gt)) = true →
            (!(cmpLastFired lf a c == Ordering.gt)) = true := by
          intro a ha b hb c hc
          rw [cmpLastFired_ne_gt_iff (hgood a ha) (hgood b hb),
            cmpLastFired_ne_gt_iff (hgood b hb) (hgood c hc),
            cmpLastFired_ne_gt_iff (hgood a ha) (hgood c hc)]
          unfold entryLE
          cases lf a <;> cases lf b <;> cases lf c <;> simp <;> omega
        refine ⟨hd, ?_, ?_, ?_⟩
        · unfold selectToFire
          rw [hs]
          rfl
        · exact mem_sortByCmp (by rw [hs]; simp)
        · intro other hother
          have hmin := sortByCmp_head_min cands htot htrans hd tl hs other hother
          have hhd : hd ∈ cands := mem_sortByCmp (by rw [hs]; simp)
          exact (cmpLastFired_ne_gt_iff (hgood hd hhd) (hgood other hother)).mp hmin

/-- A concrete last-fired entry map: pattern 0 never fired, pattern 1 fired
at counter value 5. -/
def lastFiredW : JoinPatternId → Option (List Nat) :=
  fun id => if id = 0 then none else some [5]

/-- Witness for C2 on the concrete candidate list `[1, 0]`. -/
theorem select_to_fire_witness :
    (∀ id ∈ [1, 0], ∀ cs, lastFiredW id = some cs → goodDigits cs) ∧
    (([1, 0] : List JoinPatternId) ≠ [] →
      ∃ chosen, selectToFire lastFiredW [1, 0] = some chosen ∧
        chosen ∈ [1, 0] ∧ ∀ other ∈ [1, 0], entryLE (lastFiredW chosen) (lastFiredW other)) := by
  have hgood : ∀ id ∈ [1, 0], ∀ cs, lastFiredW id = some cs → goodDigits cs := by
    intro id hid cs hcs
    rcases List.mem_cons.mp hid with rfl | hid2
    · simp only [lastFiredW, if_neg (by omega : ¬ (1 : Nat) = 0)] at hcs
      obtain rfl : [5] = cs := by injection hcs
      refine ⟨by simp, ?_, by simp⟩
      intro d hd
      simp only [List.mem_singleton] at hd
      subst hd
      simp [UINT_MAX]
    · rcases List.mem_singleton.mp hid2 with rfl
      simp [lastFiredW] at hcs
  exact ⟨hgood,
    (select_to_fire_picks_least_recently_fired lastFiredW [1, 0] hgood).2⟩

/-! ## Firing: message retrieval (`controller/fire.rs`, C3) -/

/-- The retrieval loop of `Controller::fire_join_pattern`: for each channel
id of the pattern's channel list, in list order, pop one message from the
front of that channel's queue (`messages.retrieve(&chan)`); collect the
results (the source unwraps each one) and the final bag. -/
def retrieveAll : List ChannelId → Bag → List (Option Msg) × Bag
  | [], b => ([], b)
  | ch :: rest, b =>
      let step := b.retrieve ch
      let next := retrieveAll rest step.2
      (step.1 :: next.1, next.2)

lemma retrieveAll_length : ∀ (cs : List ChannelId) (b : Bag),
    (retrieveAll cs b).1.length = cs.length := by
  intro cs
  induction cs with
  | nil => intro b; rfl
  | cons ch rest ih => intro b; simp [retrieveAll, ih]

/-- Queues after the retrieval loop: every key loses exactly its number of
occurrences in the channel list, from the front (keys not listed are
untouched, `count = 0`). -/
lemma retrieveAll_bag : ∀ (cs : List ChannelId) (b : Bag) (k : ChannelId),
    (retrieveAll cs b).2 k = (b k).drop (cs.count k) := by
  intro cs
  induction cs with
  | nil => intro b k; simp [retrieveAll]
  | cons ch rest ih =>
      intro b k
      simp only [retrieveAll]
      unfold Bag.retrieve
      cases hq : b ch with
      | nil =>
          rw [ih b k]
          by_cases hk : k = ch
          · subst hk
            rw [hq]
            simp [List.count_cons]
          · simp [List.count_cons, hk, Ne.symm hk]
      | cons v q =>
          rw [ih _ k]
          by_cases hk : k = ch
          · subst hk
            simp [List.count_cons, hq, List.drop_succ_cons]
          · simp [List.count_cons, hk, Ne.symm hk]

/-- The message retrieved at position `i` of the channel list is the
`j`-th-oldest message of that channel's queue, where `j` is the number of
earlier occurrences of the same channel in the list. -/
lemma retrieveAll_nth : ∀ (cs : List ChannelId) (b : Bag) (i : Nat) (c : ChannelId),
    cs[i]? = some c →
    (retrieveAll cs b).1[i]? = some ((b c)[(cs.take i).count c]?) := by
  intro cs
  induction cs with
  | nil => intro b i c h; simp at h
  | cons ch rest ih =>
      intro b i c h
      simp only [retrieveAll]
      unfold Bag.retrieve
      cases hq : b ch with
      | nil =>
          cases i with
          | zero =>
              obtain rfl : ch = c := by simpa using h
              simp [hq]
          | succ i =>
              simp only [List.getElem?_cons_succ] at h
              rw [List.getElem?_cons_succ, ih b i c h, List.take_succ_cons]
              by_cases hk : c = ch
              · subst hk
                rw [hq]
                simp
              · simp [List.count_cons, hk]
      | cons v q =>
          cases i with
          | zero =>
              obtain rfl : ch = c := by simpa using h
              simp [hq]
          | succ i =>
              simp only [List.getElem?_cons_succ] at h
              rw [List.getElem?_cons_succ,
                ih (fun k => if k = ch then q else b k) i c h, List.take_succ_cons]
              by_cases hk : c = ch
              · subst hk
                simp [List.count_cons, hq]
              · simp [List.count_cons, hk]

/-- Occurrences before position `i` are strictly fewer than all occurrences. -/
lemma take_count_lt {cs : List ChannelId} {i : Nat} {c : ChannelId}
    (h : cs[i]? = some c) : (cs.take i).count c < cs.count c := by
  have hi : i < cs.length := by
    by_contra hcon
    rw [List.getElem?_eq_none (by omega)] at h
    exact Option.noConfusion h
  have hsplit : cs.take (i + 1) = cs.take i ++ [c] := by
    rw [List.take_succ, h]
    rfl
  have h1 : (cs.take (i + 1)).count c = (cs.take i).count c + 1 := by
    rw [hsplit, List.count_append]
    simp
  have h2 : (cs.take (i + 1)).count c ≤ cs.count c :=
    List.Sublist.count_le (List.take_sublist _ _) c
  omega

/-- C3: under the aliveness precondition, firing consumes exactly one
message per listed channel occurrence, from the head, in list order, and
touches nothing else.  For every join pattern alive in the current
inventory: (i) the retrieval loop of `fire_join_pattern` never gets `None`
(the source's `unwrap` cannot panic), (ii) the message retrieved for the
`i`-th listed channel is that channel's queue entry at index `number of
earlier occurrences of the same channel` (head first, in list order), and
(iii) afterwards every queue `k` has lost exactly its first
`count(k, channels)` messages — in particular queues of channels not listed
are unchanged (`count = 0`). -/
theorem fire_join_pattern_consumes_heads (jp : JoinPattern) (m : Bag)
    (halive : jp.variantAlive m = true) :
    (∀ o ∈ (retrieveAll jp.channels m).1, o.isSome) ∧
    (∀ i c, jp.channels[i]? = some c →
      (retrieveAll jp.channels m).1[i]? =
        some ((m c)[(jp.channels.take i).count c]?)) ∧
    (∀ k, (retrieveAll jp.channels m).2 k = (m k).drop (jp.channels.count k)) := by
  have hmult := (variantAlive_iff_aliveSpec m jp).mp halive
  refine ⟨?_, fun i c h => retrieveAll_nth jp.channels m i c h,
    fun k => retrieveAll_bag jp.channels m k⟩
  intro o ho
  obtain ⟨i, hi, hoi⟩ := List.getElem_of_mem ho
  have hlen : (retrieveAll jp.channels m).1.length = jp.channels.length :=
    retrieveAll_length jp.channels m
  have hilt : i < jp.channels.length := by omega
  have hcs : jp.channels[i]? = some (jp.channels.get ⟨i, hilt⟩) := by
    rw [List.getElem?_eq_getElem hilt]
    rfl
  set c := jp.channels.get ⟨i, hilt⟩ with hc
  have hnth := retrieveAll_nth jp.channels m i c hcs
  have hidx : (jp.channels.take i).count c < (m c).length := by
    have h1 : (jp.channels.take i).count c < jp.channels.count c := take_count_lt hcs
    have h2 : jp.channels.count c ≤ m.countItems c :=
      hmult c (by rw [hc]; exact List.get_mem _ i hilt)
    unfold Bag.countItems at h2
    omega
  rw [List.getElem?_eq_getElem hi] at hnth
  have : o = some ((m c)[(jp.channels.take i).count c]?.getD 0) := by
    rw [← hoi]
    have := List.getElem?_eq_getElem hidx (l := m c)
    injection hnth with hx
    rw [hx, List.getElem?_eq_getElem hidx]
    rfl
  rw [this]
  rfl

/-- A concrete inventory for the C3 witness: channel 0 holds `[10, 20]`. -/
def bagC3 : Bag := fun k => if k = 0 then [10, 20] else []

/-- Witness for C3 at the binary pattern on channel 0 twice (which consumes
both queued messages). -/
theorem fire_join_pattern_witness :
    (JoinPattern.BinarySend 0 0).variantAlive bagC3 = true ∧
    (∀ k, (retrieveAll (JoinPattern.BinarySend 0 0).channels bagC3).2 k =
      (bagC3 k).drop ((JoinPattern.BinarySend 0 0).channels.count k)) := by
  have halive : (JoinPattern.BinarySend 0 0).variantAlive bagC3 = true := by
    simp [JoinPattern.variantAlive, isBinaryAlive, Bag.countItems, bagC3]
  exact ⟨halive, (fire_join_pattern_consumes_heads (.BinarySend 0 0) bagC3 halive).2.2⟩

/-! ## The `Controller` and its packet loop (`controller.rs`,
`controller/handlers.rs`) -/

/-- `InvertedIndex::insert_single`: append the value to the list for `key`,
creating a singleton list when the key is absent. -/
def insertSingle (idx : ChannelId → Option (List JoinPatternId))
    (key : ChannelId) (value : JoinPatternId) :
    ChannelId → Option (List JoinPatternId) :=
  match idx key with
  | some values => fun k => if k = key then some (values ++ [value]) else idx k
  | none => fun k => if k = key then some [value] else idx k

/-- The coordinator state (struct `Controller`).  The two allocator fields
hold a `ChannelId` and a `JoinPatternId` respectively; both are `usize`
newtypes modelled as `Nat` (written `Nat` here so arithmetic automation
sees through the abbreviation). -/
structure Controller : Type where
  latestChannelId : Nat
  latestJoinPatternId : Nat
  /-- `message_counter : Counter`, as its digit vector. -/
  messageCounter : List Nat
  messages : Bag
  /-- `join_patterns : HashMap<JoinPatternId, JoinPattern>`. -/
  joinPatterns : JoinPatternId → Option JoinPattern
  /-- `join_pattern_last_fired : HashMap<JoinPatternId, Option<Counter>>`. -/
  joinPatternLastFired : JoinPatternId → Option (Option (List Nat))
  /-- `join_pattern_index : InvertedIndex<ChannelId, JoinPatternId>`. -/
  joinPatternIndex : ChannelId → Option (List JoinPatternId)

/-- `Controller::new()`: default ids, zero counter, empty collections. -/
def Controller.new : Controller :=
  { latestChannelId := 0
    latestJoinPatternId := 0
    messageCounter := [0]
    messages := Bag.empty
    joinPatterns := fun _ => none
    joinPatternLastFired := fun _ => none
    joinPatternIndex := fun _ => none }

/-- `Controller::is_alive`: look the pattern up and dispatch on its variant;
`false` for an unregistered id. -/
def Controller.isAlive (c : Controller) (joinPatternId : JoinPatternId) : Bool :=
  match c.joinPatterns joinPatternId with
  | some jp => jp.variantAlive c.messages
  | none => false

/-- `Controller::alive_join_patterns`: filter the candidate ids by
aliveness. -/
def Controller.aliveJoinPatterns (c : Controller)
    (joinPatternIds : List JoinPatternId) : List JoinPatternId :=
  joinPatternIds.filter c.isAlive

/-- The last-fired entry of a pattern id.  The source unwraps the `HashMap`
lookup (`compare_last_fired` panics on unregistered ids); the only callers
pass ids that passed the `is_alive` filter, whose entries were initialised
at registration, so the `getD` default is never observed there. -/
def Controller.lastFiredEntry (c : Controller) (joinPatternId : JoinPatternId) :
    Option (List Nat) :=
  (c.joinPatternLastFired joinPatternId).getD none

/-- `Controller::select_to_fire` at the controller level. -/
def Controller.selectToFire (c : Controller) (aliveJpIds : List JoinPatternId) :
    Option JoinPatternId :=
  RustyJunctions.selectToFire c.lastFiredEntry aliveJpIds

/-- `Controller::relevant_join_patterns`: the inverted-index entry for the
channel. -/
def Controller.relevantJoinPatterns (c : Controller) (channelId : ChannelId) :
    Option (List JoinPatternId) :=
  c.joinPatternIndex channelId

/-- The alive candidates considered after a message on `channelId`
(`handle_join_pattern_firing`, steps 2–3). -/
def Controller.aliveCandidates (c : Controller) (channelId : ChannelId) :
    List JoinPatternId :=
  match c.relevantJoinPatterns channelId with
  | some ids => c.aliveJoinPatterns ids
  | none => []

/-- `Controller::fire_join_pattern`: look the pattern up, retrieve one
message per listed channel in list order, and hand the messages to the
pattern's handler (the handler dispatch spawns a thread and is not part of
the coordinator state; the consumed messages are returned as the firing
event).  The source unwraps the lookup; ids that passed the alive filter are
always registered, so the `none` branch is unreachable in the packet loop. -/
def Controller.fireJoinPattern (c : Controller) (joinPatternId : JoinPatternId) :
    Controller × List (Option Msg) :=
  match c.joinPatterns joinPatternId with
  | some jp =>
      let r := retrieveAll jp.channels c.messages
      ({ c with messages := r.2 }, r.1)
  | none => (c, [])

/-- `Controller::reset_last_fired`: record the current message counter as
the pattern's last-fired value. -/
def Controller.resetLastFired (c : Controller) (joinPatternId : JoinPatternId) :
    Controller :=
  { c with joinPatternLastFired := fun j =>
      if j = joinPatternId then some (some c.messageCounter)
      else c.joinPatternLastFired j }

/-- A firing event: the fired pattern id and the messages consumed for it. -/
abbrev FiringEvent := JoinPatternId × List (Option Msg)

/-- `Controller::handle_join_pattern_firing`: narrow candidates through the
inverted index, filter by aliveness, select one pattern, fire it and update
its last-fired entry.  Returns the (at most one) firing event. -/
def Controller.handleJoinPatternFiring (c : Controller) (channelId : ChannelId) :
    Controller × List FiringEvent :=
  match c.selectToFire (c.aliveCandidates channelId) with
  | some jpId =>
      let fired := c.fireJoinPattern jpId
      (fired.1.resetLastFired jpId, [(jpId, fired.2)])
  | none => (c, [])

/-- Ingest of a message packet (`handle_message`, first two statements):
append the payload to the tail of the channel's queue and increment the
message counter. -/
def Controller.ingest (c : Controller) (channelId : ChannelId) (msg : Msg) :
    Controller :=
  { c with messages := c.messages.add channelId msg
           messageCounter := incDigits c.messageCounter }

/-- `Controller::handle_message`: ingest, then attempt one firing. -/
def Controller.handleMessage (c : Controller) (channelId : ChannelId) (msg : Msg) :
    Controller × List FiringEvent :=
  (c.ingest channelId msg).handleJoinPatternFiring channelId

/-- `ChannelId::increment` / `JoinPatternId::increment` (`types.rs`):
`self.0 += 1` on a `usize` (64-bit target).  On overflow a release build
wraps modulo `2^64` (a debug build aborts there); the model takes the
wrapping semantics, so incrementing `2^64 - 1` yields `0` again. -/
def incrementUsize (id : Nat) : Nat :=
  (id + 1) % 2 ^ 64

/-- `Controller::new_channel_id`: return the current id, then increment it. -/
def Controller.newChannelId (c : Controller) : ChannelId × Controller :=
  (c.latestChannelId, { c with latestChannelId := incrementUsize c.latestChannelId })

/-- `Controller::new_join_pattern_id`: return the current id, then
increment it. -/
def Controller.newJoinPatternId (c : Controller) : JoinPatternId × Controller :=
  (c.latestJoinPatternId,
    { c with latestJoinPatternId := incrementUsize c.latestJoinPatternId })

/-- `Controller::initialize_last_fired`: a fresh pattern has entry `None`
(never fired). -/
def Controller.initializeLastFired (c : Controller) (joinPatternId : JoinPatternId) :
    Controller :=
  { c with joinPatternLastFired := fun j =>
      if j = joinPatternId then some none else c.joinPatternLastFired j }

/-- `Controller::insert_join_pattern`: register the pattern id in the
inverted index under each of its channels, then store the record. -/
def Controller.insertJoinPattern (c : Controller) (joinPatternId : JoinPatternId)
    (jp : JoinPattern) : Controller :=
  { c with
    joinPatternIndex :=
      jp.channels.foldl (fun idx ch => insertSingle idx ch joinPatternId)
        c.joinPatternIndex
    joinPatterns := fun j => if j = joinPatternId then some jp else c.joinPatterns j }

/-- `Controller::handle_add_join_pattern_request`. -/
def Controller.handleAddJoinPatternRequest (c : Controller) (jp : JoinPattern) :
    Controller :=
  let step := c.newJoinPatternId
  (step.2.initializeLastFired step.1).insertJoinPattern step.1 jp

/-- The packet protocol (`types::Packet`); the reply sender of
`NewChannelIdRequest` is elided (the reply value is determined by the
state). -/
inductive Packet : Type
  | Message (channelId : ChannelId) (msg : Msg)
  | NewChannelIdRequest
  | AddJoinPatternRequest (jp : JoinPattern)
  | ShutDownRequest

/-- `Controller::handle_packets`: fold the packet stream over the state,
stopping at `ShutDownRequest`; collects the firing events. -/
def Controller.handlePackets (c : Controller) : List Packet → Controller × List FiringEvent
  | [] => (c, [])
  | .Message ch msg :: ps =>
      let step := c.handleMessage ch msg
      let rest := step.1.handlePackets ps
      (rest.1, step.2 ++ rest.2)
  | .NewChannelIdRequest :: ps => (c.newChannelId).2.handlePackets ps
  | .AddJoinPatternRequest jp :: ps => (c.handleAddJoinPatternRequest jp).handlePackets ps
  | .ShutDownRequest :: _ => (c, [])

lemma selectToFire_mem {lf : JoinPatternId → Option (List Nat)}
    {ids : List JoinPatternId} {jpId : JoinPatternId}
    (h : selectToFire lf ids = some jpId) : jpId ∈ ids := by
  unfold selectToFire at h
  cases hs : sortByCmp (cmpLastFired lf) ids with
  | nil => rw [hs] at h; exact Option.noConfusion h
  | cons hd tl =>
      rw [hs] at h
      obtain rfl : hd = jpId := by simpa using h
      exact mem_sortByCmp (by rw [hs]; simp)

/-- C6: handling one `Message` packet appends the payload to the tail of
the packet's channel queue, increments the message counter exactly once,
and fires at most one pattern: zero patterns when no relevant candidate is
alive (then the inventory is exactly the ingested one), and exactly one
otherwise, which is registered and consumes precisely its multiset of
listed channels from the ingested inventory. -/
theorem handle_message_ingests_and_fires_at_most_once
    (c : Controller) (ch : ChannelId) (msg : Msg) :
    (c.handleMessage ch msg).1.messageCounter = incDigits c.messageCounter ∧
    (c.handleMessage ch msg).2.length ≤ 1 ∧
    ((c.ingest ch msg).aliveCandidates ch = [] → (c.handleMessage ch msg).2 = []) ∧
    ((c.handleMessage ch msg).2 = [] →
      ∀ k, (c.handleMessage ch msg).1.messages k = (c.messages.add ch msg) k) ∧
    (∀ jpId msgs, (c.handleMessage ch msg).2 = [(jpId, msgs)] →
      ∃ jp, c.joinPatterns jpId = some jp ∧
        ∀ k, (c.handleMessage ch msg).1.messages k =
          ((c.messages.add ch msg) k).drop (jp.channels.count k)) := by
  unfold Controller.handleMessage Controller.handleJoinPatternFiring
  cases hsel : (c.ingest ch msg).selectToFire ((c.ingest ch msg).aliveCandidates ch) with
  | none =>
      refine ⟨rfl, by simp, fun _ => rfl, fun _ k => rfl, ?_⟩
      intro jpId msgs hev
      exact absurd hev (by simp)
  | some jpId =>
      have hmem : jpId ∈ (c.ingest ch msg).aliveCandidates ch :=
        selectToFire_mem hsel
      have halive : (c.ingest ch msg).isAlive jpId = true := by
        unfold Controller.aliveCandidates at hmem
        cases hidx : (c.ingest ch msg).relevantJoinPatterns ch with
        | none => rw [hidx] at hmem; simp at hmem
        | some ids =>
            rw [hidx] at hmem
            exact (List.mem_filter.mp hmem).2
      obtain ⟨jp, hjp⟩ : ∃ jp, c.joinPatterns jpId = some jp := by
        unfold Controller.isAlive at halive
        cases hlook : (c.ingest ch msg).joinPatterns jpId with
        | none => rw [hlook] at halive; exact Bool.noConfusion halive
        | some jp => exact ⟨jp, hlook⟩
      refine ⟨?_, by simp, ?_, ?_, ?_⟩
      · simp [Controller.fireJoinPattern, hjp, Controller.resetLastFired,
          Controller.ingest]
      · intro hempty
        rw [show (c.ingest ch msg).selectToFire ((c.ingest ch msg).aliveCandidates ch)
          = (c.ingest ch msg).selectToFire [] from by rw [hempty]] at hsel
        exact Option.noConfusion hsel
      · intro hev
        exact absurd hev (by simp)
      · intro jpId2 msgs hev
        obtain ⟨rfl, rfl⟩ : jpId = jpId2 ∧ ((c.ingest ch msg).fireJoinPattern jpId).2 = msgs := by
          have := List.cons.injEq (jpId, ((c.ingest ch msg).fireJoinPattern jpId).2)
            [] (jpId2, msgs) [] ▸ hev
          simp at hev
          exact ⟨hev.1, hev.2⟩
        refine ⟨jp, hjp, ?_⟩
        intro k
        have hjp2 : (c.ingest ch msg).joinPatterns jpId = some jp := hjp
        simp only [Controller.fireJoinPattern, hjp2, Controller.resetLastFired]
        exact retrieveAll_bag jp.channels (c.ingest ch msg).messages k

/-- Witness for C6 at a fresh controller: a message on channel 0 (no
patterns registered, so nothing fires) increments the counter and at most
one pattern fires. -/
theorem handle_message_witness :
    (Controller.new.handleMessage 0 7).2.length ≤ 1 ∧
    (Controller.new.handleMessage 0 7).1.messageCounter = incDigits [0] :=
  ⟨(handle_message_ingests_and_fires_at_most_once Controller.new 0 7).2.1,
    (handle_message_ingests_and_fires_at_most_once Controller.new 0 7).1⟩

/-- C7: the coordinator is a deterministic function of its packet stream —
two runs of the packet loop from freshly created controllers over the same
packet list end in equal states and produce the same firing sequence.  (The
embedding is a pure function of the state and the stream; none of the
coordinator's operations consults anything outside them: candidate sets
come from the inverted index's insertion-ordered lists, and the selection
sort is deterministic.) -/
theorem coordinator_deterministic (ps : List Packet) (c1 c2 : Controller)
    (h1 : c1 = Controller.new) (h2 : c2 = Controller.new) :
    c1.handlePackets ps = c2.handlePackets ps := by
  subst h1
  subst h2
  rfl

/-- Witness for C7 on a two-packet stream. -/
theorem coordinator_deterministic_witness :
    Controller.new = Controller.new ∧
    Controller.new.handlePackets [Packet.Message 0 7, Packet.ShutDownRequest] =
      Controller.new.handlePackets [Packet.Message 0 7, Packet.ShutDownRequest] :=
  ⟨rfl, coordinator_deterministic [Packet.Message 0 7, Packet.ShutDownRequest]
    Controller.new Controller.new rfl rfl⟩

/-- The channel ids returned by `n` successive `new_channel_id` calls. -/
def Controller.channelIdsFrom (c : Controller) : Nat → List ChannelId
  | 0 => []
  | n + 1 =>
      let step := c.newChannelId
      step.1 :: step.2.channelIdsFrom n

/-- The pattern ids returned by `n` successive `new_join_pattern_id`
calls. -/
def Controller.joinPatternIdsFrom (c : Controller) : Nat → List JoinPatternId
  | 0 => []
  | n + 1 =>
      let step := c.newJoinPatternId
      step.1 :: step.2.joinPatternIdsFrom n

lemma channelIdsFrom_eq_range' : ∀ (n : Nat) (c : Controller),
    c.latestChannelId + n ≤ 2 ^ 64 →
    c.channelIdsFrom n = List.range' c.latestChannelId n := by
  intro n
  induction n with
  | zero => intro c _; rfl
  | succ n ih =>
      intro c hbound
      have hbound2 : c.latestChannelId + n + 1 ≤ 2 ^ 64 := by omega
      rcases Nat.lt_or_ge (c.latestChannelId + 1) (2 ^ 64) with hlt | hge
      · -- no overflow on this increment
        have hmod : incrementUsize c.latestChannelId = c.latestChannelId + 1 := by
          unfold incrementUsize
          exact Nat.mod_eq_of_lt hlt
        have htail := ih { c with latestChannelId := incrementUsize c.latestChannelId }
          (by show incrementUsize c.latestChannelId + n ≤ 2 ^ 64; rw [hmod]; omega)
        rw [List.range'_succ _ _ 1]
        simp only [Controller.channelIdsFrom, Controller.newChannelId]
        rw [htail]
        simp [hmod]
      · -- the increment would wrap, so the bound forces this call to be the last
        obtain rfl : n = 0 := by omega
        rw [List.range'_succ _ _ 1]
        rfl

lemma joinPatternIdsFrom_eq_range' : ∀ (n : Nat) (c : Controller),
    c.latestJoinPatternId + n ≤ 2 ^ 64 →
    c.joinPatternIdsFrom n = List.range' c.latestJoinPatternId n := by
  intro n
  induction n with
  | zero => intro c _; rfl
  | succ n ih =>
      intro c hbound
      have hbound2 : c.latestJoinPatternId + n + 1 ≤ 2 ^ 64 := by omega
      rcases Nat.lt_or_ge (c.latestJoinPatternId + 1) (2 ^ 64) with hlt | hge
      · -- no overflow on this increment
        have hmod : incrementUsize c.latestJoinPatternId = c.latestJoinPatternId + 1 := by
          unfold incrementUsize
          exact Nat.mod_eq_of_lt hlt
        have htail := ih { c with latestJoinPatternId := incrementUsize c.latestJoinPatternId }
          (by show incrementUsize c.latestJoinPatternId + n ≤ 2 ^ 64; rw [hmod]; omega)
        rw [List.range'_succ _ _ 1]
        simp only [Controller.joinPatternIdsFrom, Controller.newJoinPatternId]
        rw [htail]
        simp [hmod]
      · -- the increment would wrap, so the bound forces this call to be the last
        obtain rfl : n = 0 := by omega
        rw [List.range'_succ _ _ 1]
        rfl

/-- A controller whose id allocators sit at `usize::MAX`, one increment
away from wrapping. -/
def ctrlWrap : Controller :=
  { Controller.new with
    latestChannelId := 2 ^ 64 - 1
    latestJoinPatternId := 2 ^ 64 - 1 }

/-- C9 counterexample: at the wrap point the `usize` increment of
`ChannelId::increment` / `JoinPatternId::increment` rolls over, so two
successive `new_channel_id` calls return `usize::MAX` and then `0` — not a
strictly increasing sequence (and ids begin to repeat from there), refuting
the claim for *every* controller. -/
theorem channel_ids_wrap_at_usize_max :
    ctrlWrap.channelIdsFrom 2 = [2 ^ 64 - 1, 0] ∧
    ¬ List.Pairwise (· < ·) (ctrlWrap.channelIdsFrom 2) ∧
    ctrlWrap.joinPatternIdsFrom 2 = [2 ^ 64 - 1, 0] ∧
    ¬ List.Pairwise (· < ·) (ctrlWrap.joinPatternIdsFrom 2) := by
  have hch : ctrlWrap.channelIdsFrom 2 = [2 ^ 64 - 1, 0] := by
    simp [ctrlWrap, Controller.channelIdsFrom, Controller.newChannelId,
      Controller.new, incrementUsize]
  have hjp : ctrlWrap.joinPatternIdsFrom 2 = [2 ^ 64 - 1, 0] := by
    simp [ctrlWrap, Controller.joinPatternIdsFrom, Controller.newJoinPatternId,
      Controller.new, incrementUsize]
  refine ⟨hch, ?_, hjp, ?_⟩
  · rw [hch]
    intro hcon
    have h0 : (2 ^ 64 - 1 : Nat) < 0 := (List.pairwise_cons.mp hcon).1 0 (by simp)
    omega
  · rw [hjp]
    intro hcon
    have h0 : (2 ^ 64 - 1 : Nat) < 0 := (List.pairwise_cons.mp hcon).1 0 (by simp)
    omega

/-- C9 amended: as long as the `usize` allocator does not overflow — the
current id plus the number of calls stays within `2^64`, which holds for
the first `2^64` allocations of a fresh junction — the ids handed out by
successive `new_channel_id` calls are strictly increasing, hence pairwise
distinct, and from a fresh controller they are `0, 1, …, n-1` starting at
the default id; likewise for `new_join_pattern_id`.  (At overflow the
increment wraps and ids repeat, as the counterexample shows.) -/
theorem channel_ids_unique_and_increasing (n : Nat) (c : Controller)
    (hch : c.latestChannelId + n ≤ 2 ^ 64)
    (hjp : c.latestJoinPatternId + n ≤ 2 ^ 64) :
    List.Pairwise (· < ·) (c.channelIdsFrom n) ∧
    List.Pairwise (· < ·) (c.joinPatternIdsFrom n) ∧
    (n ≤ 2 ^ 64 →
      Controller.new.channelIdsFrom n = List.range n ∧
      Controller.new.joinPatternIdsFrom n = List.range n) := by
  refine ⟨?_, ?_, fun hn => ⟨?_, ?_⟩⟩
  · rw [channelIdsFrom_eq_range' n c hch]
    exact List.pairwise_lt_range' _ _
  · rw [joinPatternIdsFrom_eq_range' n c hjp]
    exact List.pairwise_lt_range' _ _
  · rw [channelIdsFrom_eq_range' n Controller.new (by simpa [Controller.new] using hn),
      List.range_eq_range']
    rfl
  · rw [joinPatternIdsFrom_eq_range' n Controller.new (by simpa [Controller.new] using hn),
      List.range_eq_range']
    rfl

/-- Witness for the amended C9 at three allocations on a fresh
controller. -/
theorem channel_ids_unique_witness :
    Controller.new.latestChannelId + 3 ≤ 2 ^ 64 ∧
    Controller.new.latestJoinPatternId + 3 ≤ 2 ^ 64 ∧
    (List.Pairwise (· < ·) (Controller.new.channelIdsFrom 3) ∧
      List.Pairwise (· < ·) (Controller.new.joinPatternIdsFrom 3) ∧
      (3 ≤ 2 ^ 64 →
        Controller.new.channelIdsFrom 3 = List.range 3 ∧
        Controller.new.joinPatternIdsFrom 3 = List.range 3)) :=
  ⟨by decide, by decide,
    channel_ids_unique_and_increasing 3 Controller.new (by decide) (by decide)⟩

/-! ## The controller handle (`controller/handle.rs`, `types.rs`, C5)

`ControllerHandle::stop` sends `Packet::ShutDownRequest` over the `mpsc`
sender and unwraps the result, then `take`s the `Option<JoinHandle>`,
unwraps it and joins the thread.  Two runtime facts enter the model: an
`mpsc` send fails exactly when the receiver has been dropped, and the
coordinator thread drops its receiver when `handle_packets` returns (which
the join of the first `stop` waits for).  A failed unwrap is a panic,
modelled by `Except.error`. -/

/-- The state of a `ControllerHandle`: whether the coordinator thread is
still running (hence its packet receiver still open), and the
`control_thread_handle : Option<JoinHandle<()>>`. -/
structure ControllerHandle : Type where
  receiverOpen : Bool
  controlThreadHandle : Option Unit
  deriving DecidableEq

/-- The handle produced by `ControllerHandle::new` for a running
coordinator. -/
def ControllerHandle.fresh : ControllerHandle :=
  { receiverOpen := true, controlThreadHandle := some () }

/-- `ControllerHandle::stop`: send `ShutDownRequest` (`unwrap` panics when
the receiver is gone), take and unwrap the join handle (panics when already
taken), join the thread (after which the coordinator has exited and its
receiver is dropped). -/
def ControllerHandle.stop (h : ControllerHandle) : Except String ControllerHandle :=
  if h.receiverOpen then
    match h.controlThreadHandle with
    | some _ => .ok { receiverOpen := false, controlThreadHandle := none }
    | none => .error "called `Option::unwrap()` on a `None` value"
  else .error "sending on a closed channel"

/-- C5 counterexample: on a fresh handle the first `stop` succeeds (sending
the shutdown request and joining), but the second call on the resulting
handle fails (the `unwrap` of the failed `ShutDownRequest` send panics) —
contradicting the claim that a second `stop` does not fail. -/
theorem stop_second_call_fails :
    ControllerHandle.fresh.stop =
      Except.ok { receiverOpen := false, controlThreadHandle := none } ∧
    (ControllerHandle.stop { receiverOpen := false, controlThreadHandle := none }).isOk
      = false :=
  ⟨rfl, rfl⟩

/-- C5 amended: after any successful `stop`, no further packets are
processed (the coordinator has exited), but a second `stop` on the same
handle is not a no-op: it panics — the shutdown-request send fails and its
`unwrap` aborts (and the taken join handle would equally fail to unwrap). -/
theorem stop_not_idempotent (h h2 : ControllerHandle)
    (hstop : h.stop = Except.ok h2) :
    h2.receiverOpen = false ∧ h2.controlThreadHandle = none ∧
    (h2.stop).isOk = false := by
  unfold ControllerHandle.stop at hstop
  split at hstop
  · cases hhandle : h.controlThreadHandle with
    | some u =>
        rw [hhandle] at hstop
        obtain rfl : ({ receiverOpen := false, controlThreadHandle := none } :
            ControllerHandle) = h2 := by
          injection hstop
        exact ⟨rfl, rfl, rfl⟩
    | none =>
        rw [hhandle] at hstop
        exact Except.noConfusion hstop
  · exact Except.noConfusion hstop

/-- Witness for the amended C5 at the fresh handle. -/
theorem stop_not_idempotent_witness :
    ControllerHandle.fresh.stop =
      Except.ok { receiverOpen := false, controlThreadHandle := none } ∧
    ((ControllerHandle.stop { receiverOpen := false, controlThreadHandle := none }).isOk
      = false) :=
  ⟨rfl, (stop_not_idempotent ControllerHandle.fresh
    { receiverOpen := false, controlThreadHandle := none } rfl).2.2⟩

/-! ## The `group_by`-based aliveness check (`join_pattern.rs`, C10) -/

/-- Itertools `group_by(|chan| *chan)` on the channel list: maximal runs of
*consecutive* equal channel ids.  Equal ids separated by a different id land
in distinct runs. -/
def groupRuns : List ChannelId → List (List ChannelId)
  | [] => []
  | x :: xs =>
      match groupRuns xs with
      | (y :: g) :: gs => if x = y then (x :: y :: g) :: gs else [x] :: (y :: g) :: gs
      | gs => [x] :: gs

/-- `JoinPattern::is_alive` of `join_pattern.rs`: group the channel list
with `group_by` and require, for each run, at least as many messages on the
run's key as the run's length. -/
def JoinPattern.isAliveGroupBy (jp : JoinPattern) (messages : Bag) : Bool :=
  (groupRuns jp.channels).all fun g =>
    match g with
    | [] => true
    | key :: _ => messages.countItems key ≥ g.length

/-- A concrete inventory separating the two aliveness checks: one message
on channel 0 and one on channel 1. -/
def bagC10 : Bag := fun k => if k ≤ 1 then [7] else []

/-- A controller holding the pattern `[0, 1, 0]` (a `TernarySend` listing
channel 0, then 1, then 0 again) with the inventory `bagC10`. -/
def ctrlC10 : Controller :=
  { latestChannelId := 2
    latestJoinPatternId := 1
    messageCounter := [2]
    messages := bagC10
    joinPatterns := fun j => if j = 0 then some (.TernarySend 0 1 0) else none
    joinPatternLastFired := fun j => if j = 0 then some none else none
    joinPatternIndex := fun k => if k ≤ 1 then some [0] else none }

/-- C10 counterexample: on the channel list `[0, 1, 0]` (equal ids *not*
adjacent) with one message on each channel, `Controller::is_alive` answers
`false` (its ternary check demands two messages on channel 0) while
`JoinPattern::is_alive` answers `true` (`group_by` splits the two
occurrences of 0 into separate runs of length 1) — the two implementations
are not equivalent. -/
theorem alive_checks_differ_on_nonadjacent_list :
    ctrlC10.isAlive 0 = false ∧
    (JoinPattern.TernarySend 0 1 0).isAliveGroupBy bagC10 = true := by
  constructor <;> rfl

/-- Equal channel ids appear only in adjacent positions: any two equal
entries enclose only entries equal to them. -/
def equalIdsAdjacent (l : List ChannelId) : Prop :=
  ∀ (i j k : Fin l.length), i ≤ j → j ≤ k →
    l.get i = l.get k → l.get i = l.get j

instance (l : List ChannelId) : Decidable (equalIdsAdjacent l) := by
  unfold equalIdsAdjacent
  infer_instance

lemma bool_eq_of_iff {a b : Bool} (h : a = true ↔ b = true) : a = b := by
  cases a <;> cases b <;> simp_all

/-- C10 amended: the two aliveness implementations agree on every channel
list in which equal channel ids occur only adjacently (all unary and binary
lists, and ternary lists other than the `[a, b, a]` shape with `a ≠ b`);
on `[a, b, a]` they differ, as the counterexample shows. -/
theorem variantAlive_eq_groupByAlive_of_adjacent (m : Bag) (jp : JoinPattern)
    (hadj : equalIdsAdjacent jp.channels) :
    jp.variantAlive m = jp.isAliveGroupBy m := by
  apply bool_eq_of_iff
  cases jp with
  | UnarySend a | UnaryRecv a | UnaryBidir a =>
      simp [JoinPattern.variantAlive, JoinPattern.isAliveGroupBy, JoinPattern.channels,
        groupRuns, isUnaryAlive]
  | BinarySend a b | BinaryRecv a b | BinaryBidir a b =>
      by_cases hab : a = b
      · subst hab
        simp [JoinPattern.variantAlive, JoinPattern.isAliveGroupBy,
          JoinPattern.channels, groupRuns, isBinaryAlive]
      · simp [JoinPattern.variantAlive, JoinPattern.isAliveGroupBy,
          JoinPattern.channels, groupRuns, isBinaryAlive, isUnaryAlive, hab]
  | TernarySend a b c | TernaryRecv a b c | TernaryBidir a b c =>
      by_cases hab : a = b <;> by_cases hbc : b = c
      · subst hab; subst hbc
        simp [JoinPattern.variantAlive, JoinPattern.isAliveGroupBy,
          JoinPattern.channels, groupRuns, isTernaryAlive]
      · subst hab
        simp only [JoinPattern.variantAlive, JoinPattern.isAliveGroupBy,
          JoinPattern.channels, groupRuns, isTernaryAlive, isBinaryAlive, isUnaryAlive]
        simp [hbc, isBinaryAlive, isUnaryAlive]
        omega
      · subst hbc
        simp only [JoinPattern.variantAlive, JoinPattern.isAliveGroupBy,
          JoinPattern.channels, groupRuns, isTernaryAlive, isBinaryAlive, isUnaryAlive]
        simp [hab, isBinaryAlive, isUnaryAlive]
        omega
      · by_cases hac : a = c
        · -- the `[a, b, a]` shape with `a ≠ b` is excluded by `hadj`.
          exfalso
          subst hac
          have hadj2 : equalIdsAdjacent [a, b, a] := hadj
          have hcon := hadj2 ⟨0, by simp⟩ ⟨1, by simp⟩ ⟨2, by simp⟩
            (Fin.mk_le_mk.mpr (by omega)) (Fin.mk_le_mk.mpr (by omega)) rfl
          exact hab (by simpa using hcon)
        · simp only [JoinPattern.variantAlive, JoinPattern.isAliveGroupBy,
            JoinPattern.channels, groupRuns, isTernaryAlive, isBinaryAlive, isUnaryAlive]
          simp [hab, hbc, hac, isBinaryAlive, isUnaryAlive]
          omega

/-- Witness for the amended C10 at the adjacent-duplicates list
`[5, 5, 9]`. -/
theorem variantAlive_eq_groupByAlive_witness :
    equalIdsAdjacent (JoinPattern.TernarySend 5 5 9).channels ∧
    (JoinPattern.TernarySend 5 5 9).variantAlive bagC10 =
      (JoinPattern.TernarySend 5 5 9).isAliveGroupBy bagC10 :=
  ⟨by decide,
    variantAlive_eq_groupByAlive_of_adjacent bagC10 (.TernarySend 5 5 9) (by decide)⟩

end RustyJunctions
